import Mathlib

/-!
Shallow embedding of the trusted-network egress proxy core of the `moltis`
repository: the domain-pattern allowlist matcher (`DomainPattern`), the
approval state machine (`DomainApprovalManager`) from
`crates/tools/src/domain_approval.rs`, and the URL helpers of the plain
HTTP-forward path from `crates/tools/src/network_proxy.rs`.

Rust `String` values are modelled by Lean `String`; the `HashMap`s guarding
the session allowlist and the pending-request table are modelled by
association lists with replace-on-insert semantics, and `HashSet<String>`
by duplicate-free lists with membership-guarded insertion.  Rust string
case-folding (`str::to_lowercase`) and trimming (`str::trim`) are modelled
on their ASCII fragment, which is the fragment exercised by domain names
and by the repository's own tests.
-/

namespace Moltis

/-- ASCII lowercasing of one character (the ASCII fragment of Rust
`char::to_lowercase`). -/
def lowerChar (c : Char) : Char :=
  if h : 65 ≤ c.toNat ∧ c.toNat ≤ 90 then
    Char.ofNatAux (c.toNat + 32) (Or.inl (by omega))
  else c

/-- ASCII-fragment model of Rust `str::to_lowercase`. -/
def lowerStr (s : String) : String :=
  ⟨s.data.map lowerChar⟩

/-- ASCII whitespace, the fragment of Rust `char::is_whitespace` relevant
to domain strings. -/
def isWsChar (c : Char) : Bool :=
  c == ' ' || c == '\t' || c == '\n' || c == '\r'

/-- ASCII-fragment model of Rust `str::trim`: drop whitespace from both
ends. -/
def trimStr (s : String) : String :=
  ⟨((s.data.dropWhile isWsChar).reverse.dropWhile isWsChar).reverse⟩

/-- Model of Rust `str::ends_with` on string suffixes. -/
def strEndsWith (s suffix : String) : Bool :=
  suffix.data.isSuffixOf s.data

/-- Model of Rust `str::strip_prefix`: if `p` is a leading substring of
`s`, return the remainder, else `none`. -/
def stripLeading (p s : String) : Option String :=
  if p.data.isPrefixOf s.data then some ⟨s.data.drop p.data.length⟩ else none

/-- `FilterAction` from `domain_approval.rs`: result of a policy check. -/
inductive FilterAction where
  | Allow
  | Deny
  | NeedsApproval
deriving DecidableEq, Repr

/-- `DomainDecision` from `domain_approval.rs`: outcome of a pending
approval request. -/
inductive DomainDecision where
  | Approved
  | Denied
  | Timeout
deriving DecidableEq, Repr

/-- `DomainPattern` from `domain_approval.rs`: one allowlist entry. -/
inductive DomainPattern where
  | Exact (d : String)
  | WildcardSubdomain (suffix : String)
  | Wildcard
deriving DecidableEq, Repr

namespace DomainPattern

/-- `DomainPattern::parse`: trim and lowercase, then classify. -/
def parse (s : String) : DomainPattern :=
  let s := lowerStr (trimStr s)
  if s = "*" then .Wildcard
  else
    match stripLeading "*." s with
    | some suffix => .WildcardSubdomain suffix
    | none => .Exact s

/-- `DomainPattern::matches` (Lean keyword, so named `matchesDomain` here): case-insensitive match of a candidate domain
against this pattern. -/
def matchesDomain (p : DomainPattern) (domain : String) : Bool :=
  let domain := lowerStr domain
  match p with
  | .Wildcard => true
  | .Exact d => domain == d
  | .WildcardSubdomain suffix =>
      domain == suffix || strEndsWith domain ("." ++ suffix)

end DomainPattern

/-- Render a pattern back to its source string form, as in the `match` of
`DomainApprovalManager::list_trusted_domains`. -/
def DomainPattern.render : DomainPattern → String
  | .Exact d => d
  | .WildcardSubdomain d => "*." ++ d
  | .Wildcard => "*"

/-! ### Association-list models of the `HashMap`/`HashSet` state -/

/-- `HashMap::get`: the value stored at key `k`, if any. -/
def lookupA {α : Type} (k : String) : List (String × α) → Option α
  | [] => none
  | (k', v) :: rest => if k' = k then some v else lookupA k rest

/-- `HashMap::insert`: replace the value at `k` if present, else append a
new entry. -/
def insertA {α : Type} (k : String) (v : α) : List (String × α) → List (String × α)
  | [] => [(k, v)]
  | (k', v') :: rest =>
      if k' = k then (k, v) :: rest else (k', v') :: insertA k v rest

/-- `HashMap::remove`: drop the entry at `k` (keys are unique in a
`HashMap`, so dropping every entry at `k` is extensionally the same). -/
def removeA {α : Type} (k : String) (m : List (String × α)) : List (String × α) :=
  m.filter (fun e => e.1 ≠ k)

/-- `HashSet::insert` for strings: add the element unless already present. -/
def insertS (d : String) (s : List String) : List String :=
  if s.contains d then s else s ++ [d]

/-- `HashSet::remove` for strings. -/
def removeS (d : String) (s : List String) : List String :=
  s.filter (fun x => x ≠ d)

/-- `PendingDomainRequest` from `domain_approval.rs`: the stored domain and
session of an in-flight approval request (the `oneshot` sender's effect is
modelled by the message value `resolve` returns). -/
structure PendingDomainRequest where
  domain : String
  session : String
deriving DecidableEq, Repr

/-- `DomainApprovalManager` state: the immutable config allowlist, the
session allowlist (`HashMap<String, HashSet<String>>`), the pending-request
table (`HashMap<String, PendingDomainRequest>`), and the approval timeout
(in milliseconds). -/
structure DomainApprovalManager where
  config_allowlist : List DomainPattern
  session_allowlist : List (String × List String)
  pending : List (String × PendingDomainRequest)
  timeout : Nat
deriving DecidableEq, Repr

namespace DomainApprovalManager

/-- `DomainApprovalManager::new`: parse each configured pattern string;
both runtime tables start empty. -/
def new (allowed_domains : List String) (timeout : Nat) : DomainApprovalManager :=
  { config_allowlist := allowed_domains.map DomainPattern.parse
    session_allowlist := []
    pending := []
    timeout := timeout }

/-- The `for pattern in &self.config_allowlist` loop of `check_domain`:
true iff some configured pattern matches. -/
def configMatches (ps : List DomainPattern) (domain : String) : Bool :=
  match ps with
  | [] => false
  | p :: rest => p.matchesDomain domain || configMatches rest domain

/-- `DomainApprovalManager::check_domain`: config allowlist first, then the
session's dynamically approved domains, else `NeedsApproval`. -/
def check_domain (m : DomainApprovalManager) (session domain : String) : FilterAction :=
  if configMatches m.config_allowlist domain then .Allow
  else
    match lookupA session m.session_allowlist with
    | some domains =>
        if domains.contains (lowerStr domain) then .Allow else .NeedsApproval
    | none => .NeedsApproval

/-- `check_domain` as an explicit state transformer: the body of the Rust
method takes only read locks, so the state it hands back is the state it
was given. -/
def check_domain_run (m : DomainApprovalManager) (session domain : String) :
    FilterAction × DomainApprovalManager :=
  if configMatches m.config_allowlist domain then (.Allow, m)
  else
    match lookupA session m.session_allowlist with
    | some domains =>
        if domains.contains (lowerStr domain) then (.Allow, m) else (.NeedsApproval, m)
    | none => (.NeedsApproval, m)

/-- `DomainApprovalManager::create_request`: insert a pending entry under
the freshly generated id (the id, produced by `Uuid::new_v4` in the source,
is passed in explicitly here). -/
def create_request (m : DomainApprovalManager) (id session domain : String) :
    DomainApprovalManager :=
  { m with pending := insertA id ⟨domain, session⟩ m.pending }

/-- `DomainApprovalManager::resolve`: remove the pending entry for `id` if
present; on `Approved`, insert the lowercased stored domain into the stored
session's allowlist entry (created if absent); fire the entry's one-shot
sender with the decision.  The second component is the value sent on the
one-shot channel (`none` when `id` was unknown and nothing was sent). -/
def resolve (m : DomainApprovalManager) (id : String) (decision : DomainDecision) :
    DomainApprovalManager × Option DomainDecision :=
  match lookupA id m.pending with
  | some pend =>
      let m1 := { m with pending := removeA id m.pending }
      let m2 :=
        if decision = DomainDecision.Approved then
          { m1 with
            session_allowlist :=
              insertA pend.session
                (insertS (lowerStr pend.domain)
                  ((lookupA pend.session m1.session_allowlist).getD []))
                m1.session_allowlist }
        else m1
      (m2, some decision)
  | none => (m, none)

/-- The fate of the one-shot receiver as observed by
`wait_for_decision`: the sent value arrived before the timeout, or the
sending half was dropped without sending, or the timeout elapsed first. -/
inductive RecvOutcome where
  | value (d : DomainDecision)
  | closed
  | timedOut
deriving DecidableEq, Repr

/-- A receiver whose sender's fate is known: a fired sender delivers its
value, a dropped sender reports a closed channel. -/
def receiverYields (sent : Option DomainDecision) : RecvOutcome :=
  match sent with
  | some d => .value d
  | none => .closed

/-- `DomainApprovalManager::wait_for_decision`: the `match` on
`tokio::time::timeout(self.timeout, rx).await` — a received value is
returned as sent, a closed channel becomes `Denied`, an elapsed timeout
becomes `Timeout`.  The method takes `&self` and touches no table, so the
state passes through unchanged. -/
def wait_for_decision (m : DomainApprovalManager) (o : RecvOutcome) :
    DomainDecision × DomainApprovalManager :=
  (match o with
   | .value d => d
   | .closed => .Denied
   | .timedOut => .Timeout, m)

/-- `DomainApprovalManager::add_trusted_domain`: insert the lowercased
domain into the session's entry, creating it if absent. -/
def add_trusted_domain (m : DomainApprovalManager) (session domain : String) :
    DomainApprovalManager :=
  { m with
    session_allowlist :=
      insertA session
        (insertS (lowerStr domain) ((lookupA session m.session_allowlist).getD []))
        m.session_allowlist }

/-- `DomainApprovalManager::remove_trusted_domain`: if the session has an
entry, remove the lowercased domain from it. -/
def remove_trusted_domain (m : DomainApprovalManager) (session domain : String) :
    DomainApprovalManager :=
  match lookupA session m.session_allowlist with
  | some domains =>
      { m with
        session_allowlist :=
          insertA session (removeS (lowerStr domain) domains) m.session_allowlist }
  | none => m

/-- `DomainApprovalManager::list_trusted_domains`: render the config
patterns, then append each session-approved domain not already present. -/
def list_trusted_domains (m : DomainApprovalManager) (session : String) : List String :=
  let result := m.config_allowlist.map DomainPattern.render
  match lookupA session m.session_allowlist with
  | some domains =>
      domains.foldl (fun acc d => if acc.contains d then acc else acc ++ [d]) result
  | none => result

end DomainApprovalManager

/-- Invariant: every domain stored in any session allowlist entry is a
fixpoint of ASCII lowercasing. -/
def SessionsLowercase (m : DomainApprovalManager) : Prop :=
  ∀ se doms, lookupA se m.session_allowlist = some doms →
    ∀ x ∈ doms, lowerStr x = x

/-! ### URL helpers of the plain HTTP-forward path (`network_proxy.rs`) -/

/-- The scheme-stripping step shared by `extract_host_from_url`,
`extract_port_from_url` and `url_to_path`:
`url.strip_prefix("http://").or_else(|| url.strip_prefix("https://")).unwrap_or(url)`. -/
def stripScheme (url : String) : String :=
  match stripLeading "http://" url with
  | some rest => rest
  | none =>
      match stripLeading "https://" url with
      | some rest => rest
      | none => url

/-- `after_scheme.split('/').next().unwrap_or(after_scheme)`: the segment
before the first `/` (the whole string when there is none). -/
def firstSegment (s : String) : String :=
  ⟨s.data.takeWhile (fun c => c != '/')⟩

/-- Model of Rust `str::rsplit_once(':')`: split at the last colon. -/
def rsplitOnceColon (s : String) : Option (String × String) :=
  if s.data.reverse.contains ':' then
    some (⟨((s.data.reverse.dropWhile (fun c => c != ':')).tail).reverse⟩,
          ⟨(s.data.reverse.takeWhile (fun c => c != ':')).reverse⟩)
  else none

/-- ASCII decimal digit test, as in Rust's integer parsing. -/
def isAsciiDigit (c : Char) : Bool :=
  48 ≤ c.toNat && c.toNat ≤ 57

/-- Value of a list of decimal digit characters. -/
def digitsVal (cs : List Char) : Nat :=
  cs.foldl (fun n c => 10 * n + (c.toNat - 48)) 0

/-- Model of Rust `str::parse::<u16>()`: an optional leading `+`, then one
or more ASCII digits, value at most `65535`; anything else is an error. -/
def parseU16 (s : String) : Option Nat :=
  let cs :=
    match s.data with
    | '+' :: rest => rest
    | cs => cs
  if cs.isEmpty then none
  else if cs.all isAsciiDigit then
    if digitsVal cs ≤ 65535 then some (digitsVal cs) else none
  else none

/-- `extract_port_from_url` from `network_proxy.rs`: the explicit `:port`
of the URL when present and parsable, else `443` for a literal `https://`
scheme and `80` otherwise (the source binds `is_https` once up front; it is
inlined at its two use sites here). -/
def extract_port_from_url (url : String) : Nat :=
  match rsplitOnceColon (firstSegment (stripScheme url)) with
  | some (_, port_str) =>
      match parseU16 port_str with
      | some p => p
      | none => if "https://".data.isPrefixOf url.data then 443 else 80
  | none => if "https://".data.isPrefixOf url.data then 443 else 80

/-- `url_to_path` from `network_proxy.rs`: the substring from the first `/`
after the scheme, or `"/"` when the URL has no path. -/
def url_to_path (url : String) : String :=
  if (stripScheme url).data.contains '/' then
    ⟨(stripScheme url).data.dropWhile (fun c => c != '/')⟩
  else "/"

/-- The rewritten upstream request line of `handle_http_forward`:
`format!("{method} {path} HTTP/1.1\r\n")`. -/
def forwardRequestLine (method path : String) : String :=
  method ++ " " ++ path ++ " HTTP/1.1\r\n"

example : DomainPattern.parse "*.github.com" = .WildcardSubdomain "github.com" := by decide
example : (DomainPattern.parse "*.github.com").matchesDomain "github.com" = true := by decide
example : (DomainPattern.parse "*.github.com").matchesDomain "api.github.com" = true := by decide
example : (DomainPattern.parse "*.github.com").matchesDomain "notgithub.com" = false := by decide
example : (DomainPattern.parse "GitHub.COM").matchesDomain "github.com" = true := by decide
example : (DomainPattern.parse " a").matchesDomain " a" = false := by decide
example :
    (DomainApprovalManager.new ["github.com"] 60).check_domain "s1" "github.com" =
      .Allow := by decide
example :
    (DomainApprovalManager.new ["github.com"] 60).check_domain "s1" "evil.com" =
      .NeedsApproval := by decide
example :
    ((DomainApprovalManager.new [] 60).add_trusted_domain "s1" "Example.COM").check_domain
      "s1" "example.com" = .Allow := by decide
example :
    ¬ ((DomainApprovalManager.new ["a.com", "a.com"] 60).list_trusted_domains "s").Nodup := by
  decide
example : extract_port_from_url "http://example.com/a/b" = 80 := by decide
example : extract_port_from_url "https://api.github.com:8443/v1" = 8443 := by decide
example : url_to_path "http://example.com/a/b" = "/a/b" := by decide
example : url_to_path "http://example.com" = "/" := by decide

/-! ## Helper lemmas -/

theorem lookupA_insertA {α : Type} (k k' : String) (v : α) (m : List (String × α)) :
    lookupA k' (insertA k v m) = if k' = k then some v else lookupA k' m := by
  induction m with
  | nil =>
      by_cases h : k' = k
      · subst h; simp [insertA, lookupA]
      · have h' : ¬ k = k' := fun hh => h hh.symm
        simp [insertA, lookupA, h, h']
  | cons e rest ih =>
      obtain ⟨k₀, v₀⟩ := e
      simp only [insertA]
      split
      · next h0 =>
          subst h0
          by_cases h : k' = k₀
          · subst h; simp [lookupA]
          · have h' : ¬ k₀ = k' := fun hh => h hh.symm
            simp [lookupA, h, h']
      · next h0 =>
          by_cases h : k' = k₀
          · subst h
            have hk : ¬ k' = k := fun hh => h0 hh
            simp [lookupA, hk]
          · have h' : ¬ k₀ = k' := fun hh => h hh.symm
            simp [lookupA, h', ih]

theorem lookupA_removeA {α : Type} (k : String) (m : List (String × α)) :
    lookupA k (removeA k m) = none := by
  induction m with
  | nil => rfl
  | cons e rest ih =>
      obtain ⟨k₀, v₀⟩ := e
      by_cases h : k₀ = k
      · simpa [removeA, List.filter, h] using ih
      · simpa [removeA, List.filter, h, lookupA] using ih

theorem mem_insertS {x d : String} {s : List String} :
    x ∈ insertS d s ↔ x ∈ s ∨ x = d := by
  unfold insertS
  split
  · next h =>
      have hd : d ∈ s := by simpa using h
      constructor
      · exact fun hx => Or.inl hx
      · rintro (hx | rfl) <;> assumption
  · simp

theorem contains_insertS_self (d : String) (s : List String) :
    (insertS d s).contains d = true := by
  have : d ∈ insertS d s := mem_insertS.mpr (Or.inr rfl)
  simpa using this

theorem not_mem_removeS (d : String) (l : List String) : d ∉ removeS d l := by
  intro h
  simp [removeS, List.mem_filter] at h

theorem configMatches_iff (ps : List DomainPattern) (d : String) :
    DomainApprovalManager.configMatches ps d = true ↔
      ∃ p ∈ ps, p.matchesDomain d = true := by
  induction ps with
  | nil => simp [DomainApprovalManager.configMatches]
  | cons p rest ih =>
      simp [DomainApprovalManager.configMatches, Bool.or_eq_true, ih]

theorem check_domain_congr {m m' : DomainApprovalManager}
    (hc : m'.config_allowlist = m.config_allowlist)
    (hs : m'.session_allowlist = m.session_allowlist) (s d : String) :
    m'.check_domain s d = m.check_domain s d := by
  unfold DomainApprovalManager.check_domain
  rw [hc, hs]

theorem data_of_stripLeading {p s r : String} (h : stripLeading p s = some r) :
    s.data = p.data ++ r.data := by
  unfold stripLeading at h
  split at h
  · next hp =>
      obtain ⟨t, ht⟩ := List.isPrefixOf_iff_prefix.mp hp
      cases h
      rw [← ht, List.drop_left]
  · cases h

theorem check_domain_of_mem {m : DomainApprovalManager} {s d : String} {doms : List String}
    (h : lookupA s m.session_allowlist = some doms)
    (hmem : doms.contains (lowerStr d) = true) :
    m.check_domain s d = .Allow := by
  unfold DomainApprovalManager.check_domain
  split
  · rfl
  · rw [h]
    simp only []
    rw [if_pos hmem]

theorem check_domain_run_eq (m : DomainApprovalManager) (s d : String) :
    m.check_domain_run s d = (m.check_domain s d, m) := by
  unfold DomainApprovalManager.check_domain_run DomainApprovalManager.check_domain
  split
  · rfl
  · cases lookupA s m.session_allowlist with
    | none => rfl
    | some doms =>
        by_cases hc : lowerStr d ∈ doms <;> simp [hc]

/-! ## Claims -/

/-- C1: for every session `s` and domain `d`, if `d` matches at least one
pattern of the config allowlist built by `DomainApprovalManager::new` from
the configured pattern strings, then `check_domain s d` returns `Allow`,
whatever the session allowlist and the pending-request table hold. -/
theorem config_allowlist_always_allows
    (allowed_domains : List String) (t : Nat)
    (sa : List (String × List String)) (pend : List (String × PendingDomainRequest))
    (s d : String)
    (h : ∃ p ∈ (DomainApprovalManager.new allowed_domains t).config_allowlist,
        p.matchesDomain d = true) :
    DomainApprovalManager.check_domain
      { DomainApprovalManager.new allowed_domains t with
        session_allowlist := sa, pending := pend } s d = .Allow := by
  have hc : DomainApprovalManager.configMatches
      (DomainApprovalManager.new allowed_domains t).config_allowlist d = true :=
    (configMatches_iff _ _).mpr h
  simp only [DomainApprovalManager.check_domain]
  rw [if_pos hc]

/-- Witness for C1 at a concrete config, session state and domain. -/
theorem config_allowlist_always_allows_witness :
    DomainApprovalManager.check_domain
      { DomainApprovalManager.new ["github.com"] 60 with
        session_allowlist := [("peer", ["other.com"])], pending := [] }
      "peer" "github.com" = .Allow :=
  config_allowlist_always_allows ["github.com"] 60 [("peer", ["other.com"])] []
    "peer" "github.com" ⟨DomainPattern.Exact "github.com", by decide, by decide⟩

/-- C2: `*.github.com` matches the bare apex `github.com` and subdomains
such as `api.github.com`, but not `notgithub.com`; in general a
`WildcardSubdomain suffix` pattern matches exactly when the case-folded
candidate equals `suffix` or ends with `"." ++ suffix`. -/
theorem wildcard_subdomain_matching :
    (DomainPattern.parse "*.github.com").matchesDomain "github.com" = true ∧
    (DomainPattern.parse "*.github.com").matchesDomain "api.github.com" = true ∧
    (DomainPattern.parse "*.github.com").matchesDomain "notgithub.com" = false ∧
    ∀ (suffix candidate : String),
      (DomainPattern.WildcardSubdomain suffix).matchesDomain candidate =
        ((lowerStr candidate == suffix) ||
          strEndsWith (lowerStr candidate) ("." ++ suffix)) :=
  ⟨by decide, by decide, by decide, fun _ _ => rfl⟩

/-- C4: `create_request` followed by `resolve id Approved` fires the
one-shot with `Approved` (so the paired receiver yields `Approved`),
removes `id` from the pending table, and makes every subsequent
`check_domain s d` return `Allow`. -/
theorem approve_round_trip (m : DomainApprovalManager) (id s d : String) :
    ((m.create_request id s d).resolve id .Approved).2 = some .Approved ∧
    lookupA id ((m.create_request id s d).resolve id .Approved).1.pending = none ∧
    ((m.create_request id s d).resolve id .Approved).1.check_domain s d = .Allow ∧
    (((m.create_request id s d).resolve id .Approved).1.wait_for_decision
        (DomainApprovalManager.receiverYields
          ((m.create_request id s d).resolve id .Approved).2)).1 = .Approved := by
  have hlk : lookupA id (m.create_request id s d).pending =
      some ⟨d, s⟩ := by
    simp [DomainApprovalManager.create_request, lookupA_insertA]
  have hres : (m.create_request id s d).resolve id .Approved =
      ({ m with
          pending := removeA id (insertA id ⟨d, s⟩ m.pending)
          session_allowlist :=
            insertA s (insertS (lowerStr d) ((lookupA s m.session_allowlist).getD []))
              m.session_allowlist },
        some .Approved) := by
    unfold DomainApprovalManager.resolve
    rw [hlk]
    rfl
  rw [hres]
  refine ⟨rfl, lookupA_removeA id _, ?_, rfl⟩
  exact check_domain_of_mem (by rw [lookupA_insertA, if_pos rfl])
    (contains_insertS_self _ _)

/-- C6: `check_domain` mutates no manager state: the state transformer form
hands back the config allowlist, session allowlist and pending table
exactly as given, and a repeated call returns the same `FilterAction`. -/
theorem check_domain_no_mutation (m : DomainApprovalManager) (s d : String) :
    (m.check_domain_run s d).2.config_allowlist = m.config_allowlist ∧
    (m.check_domain_run s d).2.session_allowlist = m.session_allowlist ∧
    (m.check_domain_run s d).2.pending = m.pending ∧
    (m.check_domain_run s d).2 = m ∧
    ((m.check_domain_run s d).2.check_domain_run s d).1 = (m.check_domain_run s d).1 := by
  simp [check_domain_run_eq]

/-- C7: `wait_for_decision` has exactly the three outcomes of its receiver:
a value sent before the timeout is returned as sent, a dropped sender is
treated as `Denied`, an elapsed timeout yields `Timeout`; and the call
leaves the pending table untouched. -/
theorem wait_for_decision_outcomes (m : DomainApprovalManager) (dec : DomainDecision)
    (o : DomainApprovalManager.RecvOutcome) :
    m.wait_for_decision (.value dec) = (dec, m) ∧
    m.wait_for_decision .closed = (.Denied, m) ∧
    m.wait_for_decision .timedOut = (.Timeout, m) ∧
    (m.wait_for_decision o).2.pending = m.pending :=
  ⟨rfl, rfl, rfl, rfl⟩

/-- C3: a decision other than `Approved` leaves the session allowlist
unchanged; in particular after `create_request s d` and `resolve id Denied`
the one-shot fires `Denied` (so the receiver yields `Denied`) and
`check_domain s d` still returns `NeedsApproval`. -/
theorem resolve_denied_leaves_session (m : DomainApprovalManager)
    (id s d : String) (dec : DomainDecision)
    (hdec : dec ≠ .Approved)
    (hcheck : m.check_domain s d = .NeedsApproval) :
    ((m.resolve id dec).1.session_allowlist = m.session_allowlist) ∧
    (((m.create_request id s d).resolve id .Denied).2 = some .Denied) ∧
    ((m.wait_for_decision
        (DomainApprovalManager.receiverYields
          (((m.create_request id s d).resolve id .Denied).2))).1 = .Denied) ∧
    (((m.create_request id s d).resolve id .Denied).1.check_domain s d =
      .NeedsApproval) := by
  have hlk : lookupA id (m.create_request id s d).pending = some ⟨d, s⟩ := by
    simp [DomainApprovalManager.create_request, lookupA_insertA]
  have hres : (m.create_request id s d).resolve id .Denied =
      ({ m with pending := removeA id (insertA id ⟨d, s⟩ m.pending) },
        some .Denied) := by
    unfold DomainApprovalManager.resolve
    rw [hlk]
    rfl
  refine ⟨?_, by rw [hres], by rw [hres]; rfl, ?_⟩
  · unfold DomainApprovalManager.resolve
    cases lookupA id m.pending with
    | none => rfl
    | some pend => simp [hdec]
  · rw [hres]
    exact (check_domain_congr rfl rfl s d).trans hcheck

/-- Witness for C3: a concrete request denied on an empty manager leaves
the domain unapproved. -/
theorem resolve_denied_leaves_session_witness :
    (((DomainApprovalManager.new [] 60).create_request "r1" "s1" "evil.com").resolve
        "r1" DomainDecision.Denied).1.check_domain "s1" "evil.com" =
      FilterAction.NeedsApproval :=
  (resolve_denied_leaves_session (DomainApprovalManager.new [] 60) "r1" "s1"
      "evil.com" DomainDecision.Denied (by decide) (by decide)).2.2.2

/-- C5 counterexample: the claim quantifies over all strings, including
strings with surrounding whitespace, but `parse` trims its input while
`matches` does not, so the round trip fails on `" a"`. -/
theorem parse_self_match_whitespace_cex :
    ¬ ((DomainPattern.parse " a").matchesDomain " a" = true) := by decide

/-- C5 (amended): for every string `d` without surrounding whitespace
(`trim d = d`), `parse(d).matches(d)` holds, and matching is
case-insensitive: `parse("GitHub.COM").matches("github.com")` is true. -/
theorem parse_self_match (d : String) (h : trimStr d = d) :
    (DomainPattern.parse d).matchesDomain d = true ∧
    (DomainPattern.parse "GitHub.COM").matchesDomain "github.com" = true := by
  refine ⟨?_, by decide⟩
  unfold DomainPattern.parse
  rw [h]
  by_cases hw : lowerStr d = "*"
  · simp only [hw, if_pos rfl]
    rfl
  · rw [if_neg hw]
    cases hsp : stripLeading "*." (lowerStr d) with
    | none =>
        simp [DomainPattern.matchesDomain]
    | some suffix =>
        have hdata : (lowerStr d).data = '*' :: '.' :: suffix.data := by
          have := data_of_stripLeading hsp
          simpa using this
        have hends : strEndsWith (lowerStr d) ("." ++ suffix) = true := by
          unfold strEndsWith
          rw [hdata, String.data_append]
          refine List.isSuffixOf_iff_suffix.mpr ?_
          show (".".data ++ suffix.data) <:+ '*' :: '.' :: suffix.data
          exact List.suffix_cons '*' ('.' :: suffix.data)
        simp [DomainPattern.matchesDomain, hends]

/-- Witness for C5 (amended) on a whitespace-free mixed-case string. -/
theorem parse_self_match_witness :
    (DomainPattern.parse "GitHub.COM").matchesDomain "GitHub.COM" = true ∧
    (DomainPattern.parse "GitHub.COM").matchesDomain "github.com" = true :=
  parse_self_match "GitHub.COM" (by decide)

theorem dedup_foldl_mem (l acc : List String) (x : String) :
    x ∈ l.foldl (fun acc d => if acc.contains d then acc else acc ++ [d]) acc ↔
      x ∈ acc ∨ x ∈ l := by
  induction l generalizing acc with
  | nil => simp
  | cons d rest ih =>
      simp only [List.foldl_cons]
      by_cases hc : acc.contains d = true
      · rw [if_pos hc, ih]
        have hd : d ∈ acc := by simpa using hc
        constructor
        · rintro (hx | hx)
          · exact Or.inl hx
          · exact Or.inr (List.mem_cons_of_mem _ hx)
        · rintro (hx | hx)
          · exact Or.inl hx
          · rcases List.mem_cons.mp hx with rfl | hx
            · exact Or.inl hd
            · exact Or.inr hx
      · rw [if_neg hc, ih]
        simp only [List.mem_append, List.mem_singleton, List.mem_cons]
        tauto

theorem dedup_foldl_nodup (l acc : List String) (h : acc.Nodup) :
    (l.foldl (fun acc d => if acc.contains d then acc else acc ++ [d]) acc).Nodup := by
  induction l generalizing acc with
  | nil => simpa
  | cons d rest ih =>
      simp only [List.foldl_cons]
      by_cases hc : acc.contains d = true
      · rw [if_pos hc]; exact ih acc h
      · rw [if_neg hc]
        refine ih _ ?_
        have hd : d ∉ acc := by simpa using hc
        simp [List.nodup_append, h, hd]

/-- C9 counterexample: with a config allowlist whose rendered patterns
repeat, `list_trusted_domains` returns duplicate strings. -/
theorem list_trusted_domains_dup_cex :
    ¬ ((DomainApprovalManager.new ["a.com", "a.com"] 60).list_trusted_domains
        "s").Nodup := by decide

/-- C9 (amended): `list_trusted_domains` is the config patterns rendered
back to their source string form unioned with the session's dynamically
approved domains, and it contains no duplicates whenever the rendered
config patterns are themselves duplicate-free (the session-contributed
part never introduces a duplicate). -/
theorem list_trusted_domains_spec (m : DomainApprovalManager) (s : String)
    (hnd : (m.config_allowlist.map DomainPattern.render).Nodup) :
    (m.list_trusted_domains s).Nodup ∧
    ∀ x, x ∈ m.list_trusted_domains s ↔
      (x ∈ m.config_allowlist.map DomainPattern.render ∨
        x ∈ (lookupA s m.session_allowlist).getD []) := by
  unfold DomainApprovalManager.list_trusted_domains
  cases hls : lookupA s m.session_allowlist with
  | none => simp [hnd]
  | some doms =>
      refine ⟨dedup_foldl_nodup doms _ hnd, fun x => ?_⟩
      rw [dedup_foldl_mem]
      simp

/-- Witness for C9 (amended) on a concrete manager with a distinct config
and one session-approved domain. -/
theorem list_trusted_domains_spec_witness :
    ((⟨[DomainPattern.Exact "a.com", DomainPattern.WildcardSubdomain "npmjs.org"],
        [("s1", ["example.com"])], [], 60⟩ :
      DomainApprovalManager).list_trusted_domains "s1").Nodup :=
  (list_trusted_domains_spec _ "s1" (by decide)).1

theorem toNat_lowerChar_of_upper (c : Char) (h : 65 ≤ c.toNat ∧ c.toNat ≤ 90) :
    (lowerChar c).toNat = c.toNat + 32 := by
  unfold lowerChar
  rw [dif_pos h]
  rfl

theorem lowerChar_eq_self_of_not (c : Char) (h : ¬ (65 ≤ c.toNat ∧ c.toNat ≤ 90)) :
    lowerChar c = c := by
  unfold lowerChar
  rw [dif_neg h]

theorem lowerChar_not_upper (c : Char) :
    ¬ (65 ≤ (lowerChar c).toNat ∧ (lowerChar c).toNat ≤ 90) := by
  by_cases h : 65 ≤ c.toNat ∧ c.toNat ≤ 90
  · rw [toNat_lowerChar_of_upper c h]
    omega
  · rw [lowerChar_eq_self_of_not c h]
    exact h

theorem lowerChar_idem (c : Char) : lowerChar (lowerChar c) = lowerChar c :=
  lowerChar_eq_self_of_not (lowerChar c) (lowerChar_not_upper c)

theorem lowerStr_idem (s : String) : lowerStr (lowerStr s) = lowerStr s := by
  show String.mk ((s.data.map lowerChar).map lowerChar) = String.mk (s.data.map lowerChar)
  rw [List.map_map, show lowerChar ∘ lowerChar = lowerChar from funext lowerChar_idem]

theorem sessionsLowercase_insert (sa : List (String × List String))
    (hsa : ∀ se doms, lookupA se sa = some doms → ∀ x ∈ doms, lowerStr x = x)
    (s d : String) :
    ∀ se doms,
      lookupA se (insertA s (insertS (lowerStr d) ((lookupA s sa).getD [])) sa) =
        some doms →
      ∀ x ∈ doms, lowerStr x = x := by
  intro se doms hl x hx
  rw [lookupA_insertA] at hl
  by_cases h : se = s
  · rw [if_pos h] at hl
    cases hl
    rcases mem_insertS.mp hx with hx' | rfl
    · cases hgo : lookupA s sa with
      | none => rw [hgo] at hx'; simp at hx'
      | some old => rw [hgo] at hx'; exact hsa s old hgo x hx'
    · exact lowerStr_idem d
  · rw [if_neg h] at hl
    exact hsa se doms hl x hx

theorem resolve_session_allowlist (m : DomainApprovalManager) (id : String)
    (dec : DomainDecision) :
    (m.resolve id dec).1.session_allowlist = m.session_allowlist ∨
    ∃ pend, lookupA id m.pending = some pend ∧
      (m.resolve id dec).1.session_allowlist =
        insertA pend.session
          (insertS (lowerStr pend.domain)
            ((lookupA pend.session m.session_allowlist).getD []))
          m.session_allowlist := by
  unfold DomainApprovalManager.resolve
  cases hpd : lookupA id m.pending with
  | none => exact Or.inl rfl
  | some pend =>
      by_cases hdec : dec = .Approved
      · subst hdec
        exact Or.inr ⟨pend, rfl, by simp⟩
      · exact Or.inl (by simp [hdec])

/-- C10: every operation preserves the invariant that session-allowlist
entries hold only ASCII-lowercase (lowercasing-fixpoint) domains, and
session trust is case-insensitive at the interface: strings with equal
lowercase forms grant and revoke the same trust. -/
theorem session_allowlist_lowercase (m : DomainApprovalManager)
    (inv : SessionsLowercase m) (id s d s1 d1 d2 : String) (dec : DomainDecision)
    (hl : lowerStr d1 = lowerStr d2) :
    SessionsLowercase (m.add_trusted_domain s d) ∧
    SessionsLowercase ((m.resolve id dec).1) ∧
    SessionsLowercase (m.remove_trusted_domain s d) ∧
    SessionsLowercase (m.create_request id s d) ∧
    ((m.add_trusted_domain s1 d1).check_domain s1 d2 = .Allow) ∧
    (∀ doms,
      lookupA s1
          ((m.add_trusted_domain s1 d1).remove_trusted_domain s1 d2).session_allowlist =
        some doms →
      lowerStr d1 ∉ doms) := by
  have hadd : lookupA s1 (m.add_trusted_domain s1 d1).session_allowlist =
      some (insertS (lowerStr d1) ((lookupA s1 m.session_allowlist).getD [])) := by
    show lookupA s1 (insertA s1 _ m.session_allowlist) = _
    rw [lookupA_insertA, if_pos rfl]
  refine ⟨?_, ?_, ?_, ?_, ?_, ?_⟩
  · intro se doms hl'
    exact sessionsLowercase_insert m.session_allowlist inv s d se doms hl'
  · intro se doms hl'
    rcases resolve_session_allowlist m id dec with heq | ⟨pend, _, heq⟩
    · rw [heq] at hl'
      exact inv se doms hl'
    · rw [heq] at hl'
      exact sessionsLowercase_insert m.session_allowlist inv pend.session pend.domain
        se doms hl'
  · intro se doms hl'
    unfold DomainApprovalManager.remove_trusted_domain at hl'
    cases hgo : lookupA s m.session_allowlist with
    | none =>
        rw [hgo] at hl'
        exact inv se doms hl'
    | some doms0 =>
        rw [hgo] at hl'
        simp only [] at hl'
        rw [lookupA_insertA] at hl'
        by_cases h : se = s
        · rw [if_pos h] at hl'
          cases hl'
          intro x hx
          exact inv s doms0 hgo x (List.mem_of_mem_filter hx)
        · rw [if_neg h] at hl'
          exact inv se doms hl'
  · intro se doms hl'
    exact inv se doms hl'
  · refine check_domain_of_mem hadd ?_
    rw [← hl]
    exact contains_insertS_self _ _
  · intro doms hl'
    unfold DomainApprovalManager.remove_trusted_domain at hl'
    rw [hadd] at hl'
    simp only [] at hl'
    rw [lookupA_insertA, if_pos rfl] at hl'
    cases hl'
    rw [hl]
    exact not_mem_removeS _ _

/-- Witness for C10: trust added under one casing is visible under the
other on a concrete empty manager. -/
theorem session_allowlist_lowercase_witness :
    ((DomainApprovalManager.new [] 60).add_trusted_domain "s1" "Foo.COM").check_domain
        "s1" "foo.com" = FilterAction.Allow :=
  (session_allowlist_lowercase (DomainApprovalManager.new [] 60)
      (fun _ _ h => Option.noConfusion h) "id" "s" "d" "s1" "Foo.COM" "foo.com"
      DomainDecision.Denied (by decide)).2.2.2.2.1

theorem stripLeading_append (p s : String) : stripLeading p (p ++ s) = some s := by
  unfold stripLeading
  rw [if_pos (List.isPrefixOf_iff_prefix.mpr
    (by rw [String.data_append]; exact List.prefix_append _ _))]
  rw [String.data_append, List.drop_left]

theorem http_not_leading_https (x : String) :
    "http://".data.isPrefixOf ("https://" ++ x).data = false := by
  rw [String.data_append]
  show List.isPrefixOf ['h', 't', 't', 'p', ':', '/', '/']
    ('h' :: 't' :: 't' :: 'p' :: 's' :: ':' :: '/' :: '/' :: x.data) = false
  simp [List.isPrefixOf, (by decide : ((':' : Char) == 's') = false)]

theorem https_not_leading_http (x : String) :
    "https://".data.isPrefixOf ("http://" ++ x).data = false := by
  rw [String.data_append]
  show List.isPrefixOf ['h', 't', 't', 'p', 's', ':', '/', '/']
    ('h' :: 't' :: 't' :: 'p' :: ':' :: '/' :: '/' :: x.data) = false
  simp [List.isPrefixOf, (by decide : (('s' : Char) == ':') = false)]

theorem stripScheme_http (x : String) : stripScheme ("http://" ++ x) = x := by
  unfold stripScheme
  rw [stripLeading_append]

theorem stripScheme_https (x : String) : stripScheme ("https://" ++ x) = x := by
  unfold stripScheme
  have h1 : stripLeading "http://" ("https://" ++ x) = none := by
    unfold stripLeading
    rw [if_neg (by simp [http_not_leading_https x])]
  rw [h1, stripLeading_append]

theorem takeWhile_ne_append (c : Char) (l r : List Char) (h : ∀ a ∈ l, a ≠ c) :
    (l ++ c :: r).takeWhile (fun a => a != c) = l := by
  induction l with
  | nil => simp
  | cons a as ih =>
      have ha : (a != c) = true := by
        simpa using h a (List.mem_cons_self a as)
      simp only [List.cons_append, List.takeWhile_cons, ha]
      rw [ih (fun b hb => h b (List.mem_cons_of_mem a hb))]
      exact if_pos trivial

theorem dropWhile_ne_append (c : Char) (l r : List Char) (h : ∀ a ∈ l, a ≠ c) :
    (l ++ c :: r).dropWhile (fun a => a != c) = c :: r := by
  induction l with
  | nil => simp
  | cons a as ih =>
      have ha : (a != c) = true := by
        simpa using h a (List.mem_cons_self a as)
      simp only [List.cons_append, List.dropWhile_cons, ha]
      exact ih (fun b hb => h b (List.mem_cons_of_mem a hb))

theorem contains_eq_false_of_not_mem {c : Char} {l : List Char} (h : c ∉ l) :
    l.contains c = false := by
  cases hc : l.contains c
  · rfl
  · exact absurd (by simpa using hc) h

theorem firstSegment_slash (host rest : String) (hs : ∀ a ∈ host.data, a ≠ '/') :
    firstSegment (host ++ ("/" ++ rest)) = host := by
  unfold firstSegment
  have hd : (host ++ ("/" ++ rest)).data = host.data ++ '/' :: rest.data := by
    rw [String.data_append, String.data_append]
    rfl
  rw [hd, takeWhile_ne_append '/' host.data rest.data hs]

theorem takeWhile_ne_all (c : Char) (l : List Char) (h : ∀ a ∈ l, a ≠ c) :
    l.takeWhile (fun a => a != c) = l := by
  induction l with
  | nil => rfl
  | cons a as ih =>
      have ha : (a != c) = true := by
        simpa using h a (List.mem_cons_self a as)
      simp only [List.takeWhile_cons, ha]
      rw [ih (fun b hb => h b (List.mem_cons_of_mem a hb))]
      exact if_pos trivial

theorem firstSegment_no_slash (host : String) (hs : ∀ a ∈ host.data, a ≠ '/') :
    firstSegment host = host := by
  unfold firstSegment
  rw [takeWhile_ne_all '/' host.data hs]

theorem rsplit_none (s : String) (h : ∀ a ∈ s.data, a ≠ ':') :
    rsplitOnceColon s = none := by
  unfold rsplitOnceColon
  rw [if_neg (by simp; exact fun hm => h ':' hm rfl)]

theorem rsplit_colon (host p : String) (hp : ∀ a ∈ p.data, a ≠ ':') :
    rsplitOnceColon (host ++ (":" ++ p)) = some (host, p) := by
  unfold rsplitOnceColon
  have hd : (host ++ (":" ++ p)).data.reverse =
      p.data.reverse ++ ':' :: host.data.reverse := by
    rw [String.data_append, String.data_append]
    show (host.data ++ ':' :: p.data).reverse = _
    rw [List.reverse_append]
    simp [List.reverse_cons, List.append_assoc]
  rw [hd, if_pos (by simp),
    dropWhile_ne_append ':' p.data.reverse host.data.reverse
      (fun a ha => hp a (List.mem_reverse.mp ha)),
    takeWhile_ne_append ':' p.data.reverse host.data.reverse
      (fun a ha => hp a (List.mem_reverse.mp ha))]
  simp

/-- C8: on the HTTP-forward path the upstream port is the URL's explicit
port when present, else `443` for a URL beginning with the literal scheme
`https://` and `80` otherwise; and the rewritten upstream request line
replaces the absolute URL by its path (the substring from the first `/`
after the scheme-stripped host, or `/` when there is none), so
`GET http://example.com/a/b HTTP/1.1` is forwarded as
`GET /a/b HTTP/1.1`. -/
theorem http_forward_port_and_path (method host p rest : String) (n : Nat)
    (hhc : ∀ a ∈ host.data, a ≠ ':') (hhs : ∀ a ∈ host.data, a ≠ '/')
    (hpc : ∀ a ∈ p.data, a ≠ ':') (hps : ∀ a ∈ p.data, a ≠ '/')
    (hpn : parseU16 p = some n) :
    extract_port_from_url ("http://" ++ (host ++ ("/" ++ rest))) = 80 ∧
    extract_port_from_url ("https://" ++ (host ++ ("/" ++ rest))) = 443 ∧
    extract_port_from_url ("http://" ++ (host ++ (":" ++ (p ++ ("/" ++ rest))))) = n ∧
    extract_port_from_url ("https://" ++ (host ++ (":" ++ (p ++ ("/" ++ rest))))) = n ∧
    url_to_path ("http://" ++ (host ++ ("/" ++ rest))) = "/" ++ rest ∧
    url_to_path ("http://" ++ host) = "/" ∧
    forwardRequestLine method (url_to_path ("http://" ++ (host ++ ("/" ++ rest)))) =
      method ++ " " ++ ("/" ++ rest) ++ " HTTP/1.1\r\n" ∧
    extract_port_from_url "http://example.com/a/b" = 80 ∧
    url_to_path "http://example.com/a/b" = "/a/b" ∧
    forwardRequestLine "GET" (url_to_path "http://example.com/a/b") =
      "GET /a/b HTTP/1.1\r\n" := by
  have hall : ∀ a ∈ host.data ++ ':' :: p.data, a ≠ '/' := by
    intro a ha
    rcases List.mem_append.mp ha with h1 | h1
    · exact hhs a h1
    · rcases List.mem_cons.mp h1 with rfl | h2
      · decide
      · exact hps a h2
  have hfs : firstSegment (host ++ (":" ++ (p ++ ("/" ++ rest)))) =
      host ++ (":" ++ p) := by
    unfold firstSegment
    have hd : (host ++ (":" ++ (p ++ ("/" ++ rest)))).data =
        (host.data ++ ':' :: p.data) ++ '/' :: rest.data := by
      show host.data ++ (':' :: (p.data ++ ('/' :: rest.data))) = _
      simp [List.append_assoc]
    rw [hd, takeWhile_ne_append '/' (host.data ++ ':' :: p.data) rest.data hall]
    rfl
  have hhttps : ∀ x : String,
      "https://".data.isPrefixOf ("https://" ++ x).data = true := fun x =>
    List.isPrefixOf_iff_prefix.mpr
      (by rw [String.data_append]; exact List.prefix_append _ _)
  have h1 : extract_port_from_url ("http://" ++ (host ++ ("/" ++ rest))) = 80 := by
    unfold extract_port_from_url
    rw [stripScheme_http, firstSegment_slash host rest hhs, rsplit_none host hhc,
      https_not_leading_http]
    rfl
  have h2 : extract_port_from_url ("https://" ++ (host ++ ("/" ++ rest))) = 443 := by
    unfold extract_port_from_url
    rw [stripScheme_https, firstSegment_slash host rest hhs, rsplit_none host hhc,
      hhttps]
    rfl
  have h3 : extract_port_from_url
      ("http://" ++ (host ++ (":" ++ (p ++ ("/" ++ rest))))) = n := by
    unfold extract_port_from_url
    rw [stripScheme_http, hfs, rsplit_colon host p hpc]
    simp [hpn]
  have h4 : extract_port_from_url
      ("https://" ++ (host ++ (":" ++ (p ++ ("/" ++ rest))))) = n := by
    unfold extract_port_from_url
    rw [stripScheme_https, hfs, rsplit_colon host p hpc]
    simp [hpn]
  have h5 : url_to_path ("http://" ++ (host ++ ("/" ++ rest))) = "/" ++ rest := by
    unfold url_to_path
    rw [stripScheme_http]
    have hd : (host ++ ("/" ++ rest)).data = host.data ++ '/' :: rest.data := by
      rw [String.data_append]
      rfl
    rw [hd, if_pos (by simp), dropWhile_ne_append '/' host.data rest.data hhs]
    rfl
  have h6 : url_to_path ("http://" ++ host) = "/" := by
    unfold url_to_path
    rw [stripScheme_http]
    rw [if_neg (by simp; exact fun hm => hhs '/' hm rfl)]
  refine ⟨h1, h2, h3, h4, h5, h6, ?_, by decide, by decide, by decide⟩
  rw [h5]
  rfl

/-- Witness for C8 at `GET http://example.com:8080/a/b` style inputs. -/
theorem http_forward_port_and_path_witness :
    extract_port_from_url
        ("http://" ++ ("example.com" ++ (":" ++ ("8080" ++ ("/" ++ "a/b"))))) =
      8080 :=
  (http_forward_port_and_path "GET" "example.com" "8080" "a/b" 8080
      (by decide) (by decide) (by decide) (by decide) (by decide)).2.2.1

end Moltis
